import Mathlib

/-!
Shallow embedding of `main.go` of webhookinspector-cli: a CLI relay that
subscribes to a websocket stream, filters inbound webhook events by a
configured inspector id, and replays accepted events as HTTP requests
against a configured local endpoint.

Strings are modeled as lists of unicode scalar characters (`Str`); Go maps
are modeled as association lists kept sorted by key (a canonical
representation of an unordered map). Fallible library operations return
`Option`. The side-effecting pieces (the websocket read loop, the ping
goroutine, the reconnect loop in `main`) are modeled as functions over
explicit finite traces of their inputs (read results, ticker events,
session outcomes).
-/

/-- Strings as lists of unicode scalar values. -/
abbrev Str := List Char

/-- Bytewise "less than" on strings (Go compares strings bytewise; on valid
UTF-8, bytewise order coincides with scalar-value order). -/
def strLt : Str → Str → Bool
  | [], [] => false
  | [], _ :: _ => true
  | _ :: _, [] => false
  | a :: as, b :: bs =>
    if a.toNat < b.toNat then true
    else if b.toNat < a.toNat then false
    else strLt as bs

/-- Insert a key/value pair into a key-sorted association list, overwriting
an existing binding of the same key (the model of a Go map assignment
`m[k] = v`). -/
def insertField {α : Type} (k : Str) (v : α) : List (Str × α) → List (Str × α)
  | [] => [(k, v)]
  | (k', v') :: rest =>
    if strLt k k' then (k, v) :: (k', v') :: rest
    else if k = k' then (k, v) :: rest
    else (k', v') :: insertField k v rest

/-- Look up a key in an association list (the model of a Go map read). -/
def lookupField {α : Type} (k : Str) : List (Str × α) → Option α
  | [] => none
  | (k', v) :: rest => if k = k' then some v else lookupField k rest

theorem strLt_irrefl (s : Str) : strLt s s = false := by
  induction s with
  | nil => rfl
  | cons c t ih => simp [strLt, ih]

theorem strLt_asymm {a b : Str} (h : strLt a b = true) : strLt b a = false := by
  induction a generalizing b with
  | nil =>
    cases b with
    | nil => simp [strLt] at h
    | cons c t => rfl
  | cons c t ih =>
    cases b with
    | nil => simp [strLt] at h
    | cons c' t' =>
      simp only [strLt] at h ⊢
      rcases Nat.lt_trichotomy c.toNat c'.toNat with h1 | h1 | h1
      · have h2 : ¬ c'.toNat < c.toNat := by omega
        simp [h1, h2]
      · have h2 : ¬ c.toNat < c'.toNat := by omega
        have h3 : ¬ c'.toNat < c.toNat := by omega
        simp only [if_neg h2, if_neg h3] at h ⊢
        exact ih h
      · have h2 : ¬ c.toNat < c'.toNat := by omega
        simp [h1, h2] at h

theorem strLt_trans {a b c : Str} (h1 : strLt a b = true) (h2 : strLt b c = true) :
    strLt a c = true := by
  induction a generalizing b c with
  | nil =>
    cases c with
    | nil =>
      cases b with
      | nil => simp [strLt] at h1
      | cons y ys => simp [strLt] at h2
    | cons z zs => rfl
  | cons x xs ih =>
    cases b with
    | nil => simp [strLt] at h1
    | cons y ys =>
      cases c with
      | nil => simp [strLt] at h2
      | cons z zs =>
        simp only [strLt] at h1 h2 ⊢
        rcases Nat.lt_trichotomy x.toNat y.toNat with hxy | hxy | hxy
        · rcases Nat.lt_trichotomy y.toNat z.toNat with hyz | hyz | hyz
          · have hlt : x.toNat < z.toNat := by omega
            simp [hlt]
          · have hlt : x.toNat < z.toNat := by omega
            simp [hlt]
          · simp [Nat.lt_asymm hyz, hyz] at h2
        · rcases Nat.lt_trichotomy y.toNat z.toNat with hyz | hyz | hyz
          · have hlt : x.toNat < z.toNat := by omega
            simp [hlt]
          · have hny : ¬ x.toNat < y.toNat := by omega
            have hyn : ¬ y.toNat < x.toNat := by omega
            have hnyz : ¬ y.toNat < z.toNat := by omega
            have hnzy : ¬ z.toNat < y.toNat := by omega
            have hnz : ¬ x.toNat < z.toNat := by omega
            have hzn : ¬ z.toNat < x.toNat := by omega
            simp only [if_neg hny, if_neg hyn] at h1
            simp only [if_neg hnyz, if_neg hnzy] at h2
            simp only [if_neg hnz, if_neg hzn]
            exact ih h1 h2
          · simp [Nat.lt_asymm hyz, hyz] at h2
        · simp [Nat.lt_asymm hxy, hxy] at h1

theorem strLt_ne {a b : Str} (h : strLt a b = true) : a ≠ b := by
  intro he
  subst he
  simp [strLt_irrefl] at h

/-- Appending a strictly larger key inserts at the end of the list. -/
theorem insertField_append {α : Type} (k : Str) (v : α) (acc : List (Str × α))
    (h : ∀ kv ∈ acc, strLt kv.1 k = true) :
    insertField k v acc = acc ++ [(k, v)] := by
  induction acc with
  | nil => rfl
  | cons kv rest ih =>
    obtain ⟨k', v'⟩ := kv
    have hk' : strLt k' k = true := h (k', v') (by simp)
    have h1 : strLt k k' = false := strLt_asymm hk'
    have h2 : k ≠ k' := fun he => strLt_ne hk' he.symm
    have ih' := ih (fun kv hm => h kv (by simp [hm]))
    simp [insertField, h1, h2, ih']

/-! ## JSON values

`WebhookPayload.Body` is a Go `map[string]interface{}` holding an arbitrary
decoded JSON value. `Json` is the model of such a value. Numbers are decoded
by Go into `float64` and re-encoded by `strconv` in a canonical shortest
form that round-trips exactly; the model keeps the canonical decimal lexeme,
which is in bijection with the underlying float. Objects model Go maps as
key-sorted association lists (Go's `json.Marshal` emits map keys in sorted
order; the sorted list is the canonical form of the unordered map). -/

inductive Json where
  | null : Json
  | bool (b : Bool) : Json
  | num (lexeme : Str) : Json
  | str (s : Str) : Json
  | arr (elems : List Json) : Json
  | obj (fields : List (Str × Json)) : Json

/-- The double-quote character. -/
def qc : Char := Char.ofNat 0x22

/-- The backslash character. -/
def bs : Char := Char.ofNat 0x5C

/-- Lowercase hex digit, as used by Go's `encoding/json` for `\u00xx`. -/
def hexDig (n : Nat) : Char :=
  if n < 10 then Char.ofNat (0x30 + n) else Char.ofNat (0x61 + (n - 10))

def isDigitChar (c : Char) : Bool :=
  0x30 ≤ c.toNat && c.toNat ≤ 0x39

/-- Characters that can occur in a JSON number lexeme. -/
def isNumberChar (c : Char) : Bool :=
  isDigitChar c || c == '.' || c == 'e' || c == 'E' || c == '+' || c == '-'

/-- Exponent digits with an optional sign: at least one digit required. -/
def validSignedDigits : Str → Bool
  | [] => false
  | c :: rest =>
    if c == '+' || c == '-' then !rest.isEmpty && rest.all isDigitChar
    else (c :: rest).all isDigitChar

/-- An optional exponent part and nothing else. -/
def validExpOnly : Str → Bool
  | [] => true
  | c :: rest => if c == 'e' || c == 'E' then validSignedDigits rest else false

/-- An optional fraction (with at least one digit) and optional exponent. -/
def validFracExp : Str → Bool
  | [] => true
  | c :: rest =>
    if c == '.' then
      !(rest.takeWhile isDigitChar).isEmpty && validExpOnly (rest.dropWhile isDigitChar)
    else validExpOnly (c :: rest)

/-- Integer part (after the optional minus sign): `0` or a nonzero digit
followed by digits, then an optional fraction and exponent. -/
def validNumBody : Str → Bool
  | [] => false
  | c :: rest =>
    if c == '0' then validFracExp rest
    else if isDigitChar c then validFracExp (rest.dropWhile isDigitChar) else false

/-- The JSON number grammar (RFC 8259), as accepted by Go's scanner and as
produced by Go's float formatting. -/
def validNumber : Str → Bool
  | [] => false
  | c :: rest => if c == '-' then validNumBody rest else validNumBody (c :: rest)

/-- Sorted, duplicate-free keys: the canonical-map invariant of `Json.obj`. -/
def sortedKeysB : List (Str × Json) → Bool
  | [] => true
  | [_] => true
  | (k1, _) :: (k2, v2) :: rest =>
    strLt k1 k2 && sortedKeysB ((k2, v2) :: rest)

mutual
/-- Well-formedness of a decoded JSON value: number lexemes are valid
canonical number tokens, object keys are sorted and duplicate-free. Every
value Go decodes from a JSON document (and hence every event body) has a
canonical representative satisfying this invariant. -/
def jsonWF : Json → Bool
  | .null => true
  | .bool _ => true
  | .str _ => true
  | .num lx => validNumber lx && lx.all isNumberChar
  | .arr es => jsonArrWF es
  | .obj fs => sortedKeysB fs && jsonObjWF fs

def jsonArrWF : List Json → Bool
  | [] => true
  | e :: es => jsonWF e && jsonArrWF es

def jsonObjWF : List (Str × Json) → Bool
  | [] => true
  | (_, v) :: fs => jsonWF v && jsonObjWF fs
end

/-- `\uXXXX` escape with lowercase hex digits, as written by Go's encoder
(`\u00xx` for control bytes and `<`, `>`, `&`; ` `/` `). -/
def uEscape (n : Nat) : Str :=
  [bs, 'u', hexDig (n / 4096 % 16), hexDig (n / 256 % 16),
   hexDig (n / 16 % 16), hexDig (n % 16)]

/-- Per-character escaping of Go's `encoding/json` string encoder with its
default HTML escaping: `"` and `\` get backslash escapes, `\n`/`\r`/`\t`
their short forms, other control characters `\u00xx`, the HTML-sensitive
`<`, `>`, `&` become `<`/`>`/`&`, and U+2028/U+2029 become
` `/` `; everything else is emitted verbatim. -/
def escapeChar (c : Char) : Str :=
  if c == qc then [bs, qc]
  else if c == bs then [bs, bs]
  else if c == '\n' then [bs, 'n']
  else if c == '\r' then [bs, 'r']
  else if c == '\t' then [bs, 't']
  else if c == '<' || c == '>' || c == '&' then uEscape c.toNat
  else if c.toNat < 0x20 then uEscape c.toNat
  else if c.toNat == 0x2028 || c.toNat == 0x2029 then uEscape c.toNat
  else [c]

def escapeString (s : Str) : Str := s.flatMap escapeChar

mutual
/-- Compact JSON serialization: the model of `json.Marshal` on a decoded
value (no added whitespace, map keys in sorted order, strings escaped as by
Go's HTML-escaping encoder). -/
def jsonSerialize : Json → Str
  | .null => "null".toList
  | .bool true => "true".toList
  | .bool false => "false".toList
  | .num lx => lx
  | .str s => qc :: escapeString s ++ [qc]
  | .arr es => '[' :: serializeElems es ++ [']']
  | .obj fs => '\x7b' :: serializeMembers fs ++ ['\x7d']

def serializeElems : List Json → Str
  | [] => []
  | [e] => jsonSerialize e
  | e :: es => jsonSerialize e ++ ',' :: serializeElems es

def serializeMembers : List (Str × Json) → Str
  | [] => []
  | [(k, v)] => qc :: escapeString k ++ qc :: ':' :: jsonSerialize v
  | (k, v) :: fs =>
    qc :: escapeString k ++ qc :: ':' :: jsonSerialize v ++ ',' :: serializeMembers fs
end

/-! ## JSON parsing

Model of the decoding side of `encoding/json` as invoked by
`json.Unmarshal(message, &payload)` (main.go:151): standard RFC 8259
grammar, insignificant whitespace, string escapes including `\uXXXX` with
surrogate-pair handling (invalid surrogates become U+FFFD, as in Go's
decoder), and numbers scanned maximally and validated against the number
grammar. Recursion is fuel-indexed; `jsonParse` supplies fuel exceeding the
input length, which suffices for every input. Parsed objects are built by
Go map assignment (`insertField`), so a later duplicate key overwrites an
earlier one, as in Go. -/

def isWSChar (c : Char) : Bool :=
  c.toNat == 0x20 || c.toNat == 0x09 || c.toNat == 0x0A || c.toNat == 0x0D

def skipWS : Str → Str := List.dropWhile isWSChar

def fromHexDigit (c : Char) : Option Nat :=
  let n := c.toNat
  if 0x30 ≤ n && n ≤ 0x39 then some (n - 0x30)
  else if 0x61 ≤ n && n ≤ 0x66 then some (n - 0x57)
  else if 0x41 ≤ n && n ≤ 0x46 then some (n - 0x37)
  else none

def parseHex4 : Str → Option (Nat × Str)
  | c1 :: c2 :: c3 :: c4 :: rest =>
    match fromHexDigit c1, fromHexDigit c2, fromHexDigit c3, fromHexDigit c4 with
    | some h1, some h2, some h3, some h4 =>
      some (((h1 * 16 + h2) * 16 + h3) * 16 + h4, rest)
    | _, _, _, _ => none
  | _ => none

/-- The Unicode replacement character, substituted by Go's decoder for
invalid surrogate escapes. -/
def replChar : Char := Char.ofNat 0xFFFD

/-- Parse the remainder of a JSON string after the opening quote, returning
the decoded characters and the input after the closing quote. -/
def parseStringBody : Nat → Str → Option (Str × Str)
  | 0, _ => none
  | _ + 1, [] => none
  | fuel + 1, c :: rest =>
    if c == qc then some ([], rest)
    else if c == bs then
      match rest with
      | [] => none
      | e :: rest2 =>
        if e == qc then (parseStringBody fuel rest2).map (fun p => (qc :: p.1, p.2))
        else if e == bs then (parseStringBody fuel rest2).map (fun p => (bs :: p.1, p.2))
        else if e == '/' then (parseStringBody fuel rest2).map (fun p => ('/' :: p.1, p.2))
        else if e == 'b' then (parseStringBody fuel rest2).map (fun p => ('\x08' :: p.1, p.2))
        else if e == 'f' then (parseStringBody fuel rest2).map (fun p => ('\x0c' :: p.1, p.2))
        else if e == 'n' then (parseStringBody fuel rest2).map (fun p => ('\n' :: p.1, p.2))
        else if e == 'r' then (parseStringBody fuel rest2).map (fun p => ('\r' :: p.1, p.2))
        else if e == 't' then (parseStringBody fuel rest2).map (fun p => ('\t' :: p.1, p.2))
        else if e == 'u' then
          match parseHex4 rest2 with
          | none => none
          | some (n, rest3) =>
            if 0xD800 ≤ n && n ≤ 0xDBFF then
              match rest3 with
              | c1 :: c2 :: rest4 =>
                if c1 == bs && c2 == 'u' then
                  match parseHex4 rest4 with
                  | some (n2, rest5) =>
                    if 0xDC00 ≤ n2 && n2 ≤ 0xDFFF then
                      (parseStringBody fuel rest5).map (fun p =>
                        (Char.ofNat (0x10000 + (n - 0xD800) * 0x400 + (n2 - 0xDC00)) :: p.1, p.2))
                    else (parseStringBody fuel rest3).map (fun p => (replChar :: p.1, p.2))
                  | none => (parseStringBody fuel rest3).map (fun p => (replChar :: p.1, p.2))
                else (parseStringBody fuel rest3).map (fun p => (replChar :: p.1, p.2))
              | _ => (parseStringBody fuel rest3).map (fun p => (replChar :: p.1, p.2))
            else if 0xDC00 ≤ n && n ≤ 0xDFFF then
              (parseStringBody fuel rest3).map (fun p => (replChar :: p.1, p.2))
            else
              (parseStringBody fuel rest3).map (fun p => (Char.ofNat n :: p.1, p.2))
        else none
    else if c.toNat < 0x20 then none
    else (parseStringBody fuel rest).map (fun p => (c :: p.1, p.2))

mutual
/-- Parse one JSON value, returning it and the unconsumed input. -/
def parseValue : Nat → Str → Option (Json × Str)
  | 0, _ => none
  | fuel + 1, s =>
    match skipWS s with
    | [] => none
    | c :: rest =>
      if c == '\x7b' then
        match skipWS rest with
        | [] => none
        | c2 :: rest2 =>
          if c2 == '\x7d' then some (.obj [], rest2)
          else (parseMembers fuel (c2 :: rest2) []).map (fun p => (Json.obj p.1, p.2))
      else if c == '[' then
        match skipWS rest with
        | [] => none
        | c2 :: rest2 =>
          if c2 == ']' then some (.arr [], rest2)
          else (parseElems fuel (c2 :: rest2) []).map (fun p => (Json.arr p.1, p.2))
      else if c == qc then
        (parseStringBody (rest.length + 1) rest).map (fun p => (Json.str p.1, p.2))
      else if c == 't' then
        match rest with
        | 'r' :: 'u' :: 'e' :: r => some (.bool true, r)
        | _ => none
      else if c == 'f' then
        match rest with
        | 'a' :: 'l' :: 's' :: 'e' :: r => some (.bool false, r)
        | _ => none
      else if c == 'n' then
        match rest with
        | 'u' :: 'l' :: 'l' :: r => some (.null, r)
        | _ => none
      else if c == '-' || isDigitChar c then
        let tok := (c :: rest).takeWhile isNumberChar
        if validNumber tok then some (.num tok, (c :: rest).dropWhile isNumberChar)
        else none
      else none

/-- Parse the elements of a non-empty array after its `[`. -/
def parseElems : Nat → Str → List Json → Option (List Json × Str)
  | 0, _, _ => none
  | fuel + 1, s, acc =>
    match parseValue fuel s with
    | none => none
    | some (v, rest) =>
      match skipWS rest with
      | [] => none
      | c2 :: rest2 =>
        if c2 == ',' then parseElems fuel rest2 (acc ++ [v])
        else if c2 == ']' then some (acc ++ [v], rest2)
        else none

/-- Parse the members of a non-empty object after its opening brace,
accumulating them by Go map assignment. -/
def parseMembers : Nat → Str → List (Str × Json) → Option (List (Str × Json) × Str)
  | 0, _, _ => none
  | fuel + 1, s, acc =>
    match skipWS s with
    | c :: rest =>
      if c == qc then
        match parseStringBody (rest.length + 1) rest with
        | none => none
        | some (k, rest2) =>
          match skipWS rest2 with
          | [] => none
          | c3 :: rest3 =>
            if c3 == ':' then
              match parseValue fuel rest3 with
              | none => none
              | some (v, rest4) =>
                match skipWS rest4 with
                | [] => none
                | c4 :: rest5 =>
                  if c4 == ',' then parseMembers fuel rest5 (insertField k v acc)
                  else if c4 == '\x7d' then some (insertField k v acc, rest5)
                  else none
            else none
      else none
    | [] => none
end

/-- Model of `json.Unmarshal`'s syntax phase: the whole input must be one
JSON value surrounded by optional whitespace. -/
def jsonParse (s : Str) : Option Json :=
  match parseValue (s.length + 1) s with
  | some (j, rest) => if (skipWS rest).isEmpty then some j else none
  | none => none

/-! ## Round-trip lemmas: strings -/

theorem fromHexDigit_hexDig (n : Nat) (h : n < 16) :
    fromHexDigit (hexDig n) = some n := by
  interval_cases n <;> rfl

theorem escapeChar_length (c : Char) : 1 ≤ (escapeChar c).length := by
  unfold escapeChar uEscape
  repeat' split
  all_goals simp

theorem escapeString_length (s : Str) : s.length ≤ (escapeString s).length := by
  induction s with
  | nil => simp [escapeString]
  | cons c t ih =>
    have h1 := escapeChar_length c
    simp only [escapeString, List.flatMap_cons, List.length_append, List.length_cons] at *
    omega

/-- Parsing a `\uXXXX` escape below the surrogate range yields the encoded
character. -/
theorem parseStringBody_uEscape (n : Nat) (tail : Str) (fuel : Nat) (hn : n < 0xD800) :
    parseStringBody (fuel + 1) (uEscape n ++ tail) =
      (parseStringBody fuel tail).map (fun p => (Char.ofNat n :: p.1, p.2)) := by
  have e1 : (bs == qc) = false := by decide
  have e2 : (bs == bs) = true := by decide
  have u1 : ('u' == qc) = false := by decide
  have u2 : ('u' == bs) = false := by decide
  have u3 : ('u' == '/') = false := by decide
  have u4 : ('u' == 'b') = false := by decide
  have u5 : ('u' == 'f') = false := by decide
  have u6 : ('u' == 'n') = false := by decide
  have u7 : ('u' == 'r') = false := by decide
  have u8 : ('u' == 't') = false := by decide
  have u9 : ('u' == 'u') = true := by decide
  have hd1 : n / 4096 % 16 < 16 := Nat.mod_lt _ (by norm_num)
  have hd2 : n / 256 % 16 < 16 := Nat.mod_lt _ (by norm_num)
  have hd3 : n / 16 % 16 < 16 := Nat.mod_lt _ (by norm_num)
  have hd4 : n % 16 < 16 := Nat.mod_lt _ (by norm_num)
  have hpx : parseHex4 (hexDig (n / 4096 % 16) :: hexDig (n / 256 % 16) ::
      hexDig (n / 16 % 16) :: hexDig (n % 16) :: tail) = some (n, tail) := by
    simp only [parseHex4, fromHexDigit_hexDig _ hd1, fromHexDigit_hexDig _ hd2,
      fromHexDigit_hexDig _ hd3, fromHexDigit_hexDig _ hd4]
    congr 2
    omega
  have hs1 : (decide (0xD800 ≤ n) && decide (n ≤ 0xDBFF)) = false := by
    have hx : ¬ 0xD800 ≤ n := by omega
    simp [hx]
  have hs2 : (decide (0xDC00 ≤ n) && decide (n ≤ 0xDFFF)) = false := by
    have hx : ¬ 0xDC00 ≤ n := by omega
    simp [hx]
  simp only [uEscape, List.cons_append, List.nil_append, List.append_eq, parseStringBody,
    e1, e2, u1, u2, u3, u4, u5, u6, u7, u8, u9, Bool.false_eq_true, if_false, if_true,
    hpx, hs1, hs2]

/-- Parsing an escaped character consumes exactly the escape sequence and
one fuel step, and yields the original character. -/
theorem parseStringBody_escapeChar (c : Char) (tail : Str) (fuel : Nat) :
    parseStringBody (fuel + 1) (escapeChar c ++ tail) =
      (parseStringBody fuel tail).map (fun p => (c :: p.1, p.2)) := by
  by_cases h1 : c = qc
  · subst h1; rfl
  by_cases h2 : c = bs
  · subst h2; rfl
  by_cases h3 : c = '\n'
  · subst h3; rfl
  by_cases h4 : c = '\r'
  · subst h4; rfl
  by_cases h5 : c = '\t'
  · subst h5; rfl
  by_cases h6 : c = '<'
  · subst h6; rfl
  by_cases h7 : c = '>'
  · subst h7; rfl
  by_cases h8 : c = '&'
  · subst h8; rfl
  by_cases h9 : c.toNat < 0x20
  · have hu : escapeChar c = uEscape c.toNat := by
      simp only [escapeChar]
      rw [if_neg (by simp [h1]), if_neg (by simp [h2]), if_neg (by simp [h3]),
        if_neg (by simp [h4]), if_neg (by simp [h5]),
        if_neg (by simp [h6, h7, h8]), if_pos h9]
    rw [hu, parseStringBody_uEscape _ _ _ (by omega), Char.ofNat_toNat]
  by_cases h10 : c.toNat = 0x2028
  · have hc : c = Char.ofNat 0x2028 := by
      rw [← h10, Char.ofNat_toNat]
    subst hc
    rfl
  by_cases h11 : c.toNat = 0x2029
  · have hc : c = Char.ofNat 0x2029 := by
      rw [← h11, Char.ofNat_toNat]
    subst hc
    rfl
  · have hu : escapeChar c = [c] := by
      simp only [escapeChar]
      rw [if_neg (by simp [h1]), if_neg (by simp [h2]), if_neg (by simp [h3]),
        if_neg (by simp [h4]), if_neg (by simp [h5]),
        if_neg (by simp [h6, h7, h8]), if_neg h9, if_neg (by simp [h10, h11])]
    rw [hu]
    have hcq : (c == qc) = false := by simp [h1]
    have hcb : (c == bs) = false := by simp [h2]
    simp only [List.cons_append, List.nil_append, parseStringBody, hcq, hcb,
      Bool.false_eq_true, if_false, if_neg h9]
    rfl

/-- Parsing the serialized form of a string recovers it exactly. -/
theorem parseStringBody_escapeString (s : Str) (rest : Str) (fuel : Nat)
    (hf : s.length + 1 ≤ fuel) :
    parseStringBody fuel (escapeString s ++ qc :: rest) = some (s, rest) := by
  induction s generalizing fuel with
  | nil =>
    obtain ⟨f, rfl⟩ : ∃ f, fuel = f + 1 := ⟨fuel - 1, by omega⟩
    simp [escapeString, parseStringBody]
  | cons c t ih =>
    obtain ⟨f, rfl⟩ : ∃ f, fuel = f + 1 := ⟨fuel - 1, by omega⟩
    have : escapeString (c :: t) ++ qc :: rest =
        escapeChar c ++ (escapeString t ++ qc :: rest) := by
      simp [escapeString]
    rw [this, parseStringBody_escapeChar, ih f (by simp at hf; omega)]
    rfl

/-! ## Round-trip: fuel accounting and auxiliary facts -/

mutual
/-- Fuel sufficient for `parseValue` to parse the serialization of a value. -/
def jsonFuel : Json → Nat
  | .arr es => 1 + elemsFuel es
  | .obj fs => 1 + membersFuel fs
  | _ => 1

def elemsFuel : List Json → Nat
  | [] => 0
  | e :: es => 1 + jsonFuel e + elemsFuel es

def membersFuel : List (Str × Json) → Nat
  | [] => 0
  | (_, v) :: fs => 1 + jsonFuel v + membersFuel fs
end

theorem jsonFuel_pos (j : Json) : 1 ≤ jsonFuel j := by
  cases j <;> simp [jsonFuel]

/-- True when the input cannot extend a preceding number lexeme. -/
def numBoundary : Str → Bool
  | [] => true
  | c :: _ => !isNumberChar c

theorem skipWS_cons_of_neg {c : Char} (h : isWSChar c = false) (t : Str) :
    skipWS (c :: t) = c :: t := by
  simp [skipWS, List.dropWhile_cons, h]

theorem validNumber_head {lx : Str} (h : validNumber lx = true) :
    ∃ c t, lx = c :: t ∧ (c == '-' || isDigitChar c) = true := by
  cases lx with
  | nil => simp [validNumber] at h
  | cons c t =>
    refine ⟨c, t, rfl, ?_⟩
    by_cases hc : c == '-'
    · simp [hc]
    · simp only [validNumber, hc, Bool.false_eq_true, if_false] at h
      simp only [validNumBody] at h
      by_cases h0 : c == '0'
      · have : c = '0' := by
          simpa using h0
        subst this
        simp [isDigitChar]
      · simp only [h0, Bool.false_eq_true, if_false] at h
        by_cases hd : isDigitChar c
        · simp [hd]
        · simp [hd] at h

theorem validNumber_ne_nil {lx : Str} (h : validNumber lx = true) : lx ≠ [] := by
  obtain ⟨c, t, rfl, -⟩ := validNumber_head h
  simp

theorem takeWhile_all_boundary {p : Char → Bool} {l r : Str}
    (hl : l.all p = true)
    (hr : ∀ c t, r = c :: t → p c = false) :
    (l ++ r).takeWhile p = l ∧ (l ++ r).dropWhile p = r := by
  induction l with
  | nil =>
    cases r with
    | nil => simp
    | cons c t =>
      have hc := hr c t rfl
      simp [List.takeWhile_cons, List.dropWhile_cons, hc]
  | cons c l ih =>
    simp only [List.all_cons, Bool.and_eq_true] at hl
    have := ih hl.2
    simp [List.takeWhile_cons, List.dropWhile_cons, hl.1, this.1, this.2]

theorem sortedKeysB_tail {kv : Str × Json} {fs : List (Str × Json)}
    (h : sortedKeysB (kv :: fs) = true) : sortedKeysB fs = true := by
  obtain ⟨k, v⟩ := kv
  cases fs with
  | nil => rfl
  | cons kv2 fs' =>
    obtain ⟨k2, v2⟩ := kv2
    simp only [sortedKeysB, Bool.and_eq_true] at h
    exact h.2

theorem sortedKeysB_head_lt {k : Str} {v : Json} {fs : List (Str × Json)}
    (h : sortedKeysB ((k, v) :: fs) = true) :
    ∀ kf ∈ fs.map Prod.fst, strLt k kf = true := by
  induction fs generalizing k v with
  | nil => simp
  | cons kv2 fs' ih =>
    obtain ⟨k2, v2⟩ := kv2
    simp only [sortedKeysB, Bool.and_eq_true] at h
    intro kf hkf
    simp only [List.map_cons, List.mem_cons] at hkf
    cases hkf with
    | inl he => subst he; exact h.1
    | inr hm => exact strLt_trans h.1 (ih h.2 kf hm)

theorem char_beq_false_of_toNat_ne {c d : Char} (h : c.toNat ≠ d.toNat) :
    (c == d) = false := by
  apply beq_eq_false_iff_ne.mpr
  intro he
  subst he
  exact h rfl

/-- A character that can start a number lexeme is not whitespace and not any
of the other value-start markers. -/
theorem numStart_facts {c : Char} (hc : (c == '-' || isDigitChar c) = true) :
    isWSChar c = false ∧ (c == '\x7b') = false ∧ (c == '[') = false ∧
      (c == qc) = false ∧ (c == 't') = false ∧ (c == 'f') = false ∧
      (c == 'n') = false := by
  rcases Bool.or_eq_true _ _ |>.mp hc with h | h
  · have : c = '-' := by simpa using h
    subst this
    refine ⟨by decide, by decide, by decide, by decide, by decide, by decide, by decide⟩
  · simp only [isDigitChar, Bool.and_eq_true, decide_eq_true_eq] at h
    have d1 : ((' ' : Char)).toNat = 32 := rfl
    have d2 : (('\t' : Char)).toNat = 9 := rfl
    have d3 : (('\n' : Char)).toNat = 10 := rfl
    have d4 : (('\r' : Char)).toNat = 13 := rfl
    refine ⟨?_, ?_, ?_, ?_, ?_, ?_, ?_⟩
    · simp only [isWSChar, Bool.or_eq_false_iff, beq_eq_false_iff_ne, ne_eq]
      omega
    · exact char_beq_false_of_toNat_ne (by have : (('\x7b' : Char)).toNat = 123 := rfl; omega)
    · exact char_beq_false_of_toNat_ne (by have : (('[' : Char)).toNat = 91 := rfl; omega)
    · exact char_beq_false_of_toNat_ne (by have : qc.toNat = 34 := rfl; omega)
    · exact char_beq_false_of_toNat_ne (by have : (('t' : Char)).toNat = 116 := rfl; omega)
    · exact char_beq_false_of_toNat_ne (by have : (('f' : Char)).toNat = 102 := rfl; omega)
    · exact char_beq_false_of_toNat_ne (by have : (('n' : Char)).toNat = 110 := rfl; omega)

/-- The serialization of a well-formed value starts with a character that is
not whitespace, not `]` and not the closing brace. -/
theorem jsonSerialize_head (j : Json) (hwf : jsonWF j = true) :
    ∃ c t, jsonSerialize j = c :: t ∧ isWSChar c = false ∧ (c == ']') = false ∧
      (c == '\x7d') = false := by
  cases j with
  | null => exact ⟨'n', _, rfl, rfl, rfl, rfl⟩
  | bool b =>
    cases b with
    | true => exact ⟨'t', _, rfl, rfl, rfl, rfl⟩
    | false => exact ⟨'f', _, rfl, rfl, rfl, rfl⟩
  | num lx =>
    simp only [jsonWF, Bool.and_eq_true] at hwf
    obtain ⟨c, t, rfl, hc⟩ := validNumber_head hwf.1
    refine ⟨c, t, rfl, (numStart_facts hc).1, ?_, ?_⟩
    · rcases Bool.or_eq_true _ _ |>.mp hc with h | h
      · have : c = '-' := by simpa using h
        subst this
        decide
      · simp only [isDigitChar, Bool.and_eq_true, decide_eq_true_eq] at h
        exact char_beq_false_of_toNat_ne (by have : ((']' : Char)).toNat = 93 := rfl; omega)
    · rcases Bool.or_eq_true _ _ |>.mp hc with h | h
      · have : c = '-' := by simpa using h
        subst this
        decide
      · simp only [isDigitChar, Bool.and_eq_true, decide_eq_true_eq] at h
        exact char_beq_false_of_toNat_ne (by have : (('\x7d' : Char)).toNat = 125 := rfl; omega)
  | str s => exact ⟨qc, _, rfl, rfl, rfl, rfl⟩
  | arr es => exact ⟨'[', _, rfl, rfl, rfl, rfl⟩
  | obj fs => exact ⟨'\x7b', _, rfl, rfl, rfl, rfl⟩

mutual
theorem jsonFuel_le : ∀ j : Json, jsonWF j = true →
    jsonFuel j ≤ (jsonSerialize j).length
  | .null, _ => by simp [jsonFuel, jsonSerialize]
  | .bool b, _ => by cases b <;> simp [jsonFuel, jsonSerialize]
  | .num lx, h => by
    have hne : lx ≠ [] := validNumber_ne_nil (by
      simp only [jsonWF, Bool.and_eq_true] at h
      exact h.1)
    cases lx with
    | nil => exact absurd rfl hne
    | cons c t => simp [jsonFuel, jsonSerialize]
  | .str s, _ => by simp [jsonFuel, jsonSerialize]
  | .arr es, h => by
    have := elemsFuel_le es (by simpa [jsonWF] using h)
    simp only [jsonFuel, jsonSerialize, List.length_cons, List.length_append]
    omega
  | .obj fs, h => by
    have := membersFuel_le fs (by
      simp only [jsonWF, Bool.and_eq_true] at h
      exact h.2)
    simp only [jsonFuel, jsonSerialize, List.length_cons, List.length_append]
    omega

theorem elemsFuel_le : ∀ es : List Json, jsonArrWF es = true →
    elemsFuel es ≤ (serializeElems es).length + 1
  | [], _ => by simp [elemsFuel, serializeElems]
  | [e], h => by
    have := jsonFuel_le e (by
      simp only [jsonArrWF, Bool.and_eq_true] at h
      exact h.1)
    simp only [elemsFuel, serializeElems]
    omega
  | e :: e2 :: es, h => by
    simp only [jsonArrWF, Bool.and_eq_true] at h
    have h1 := jsonFuel_le e h.1
    have h2 := elemsFuel_le (e2 :: es) (by
      simp only [jsonArrWF, Bool.and_eq_true]
      exact h.2)
    simp only [elemsFuel, serializeElems, List.length_append, List.length_cons] at *
    omega

theorem membersFuel_le : ∀ fs : List (Str × Json), jsonObjWF fs = true →
    membersFuel fs ≤ (serializeMembers fs).length + 1
  | [], _ => by simp [membersFuel, serializeMembers]
  | [(k, v)], h => by
    have := jsonFuel_le v (by
      simp only [jsonObjWF, Bool.and_eq_true] at h
      exact h.1)
    simp only [membersFuel, serializeMembers, List.length_cons, List.length_append]
    omega
  | (k, v) :: kv2 :: fs, h => by
    simp only [jsonObjWF, Bool.and_eq_true] at h
    have h1 := jsonFuel_le v h.1
    have h2 := membersFuel_le (kv2 :: fs) (by
      obtain ⟨k2, v2⟩ := kv2
      simp only [jsonObjWF, Bool.and_eq_true]
      exact h.2)
    simp only [membersFuel, serializeMembers, List.length_append, List.length_cons] at *
    omega
end

theorem numBoundary_cons (c : Char) (t : Str) :
    numBoundary (c :: t) = !isNumberChar c := rfl

theorem numBoundary_spec {rest : Str} (h : numBoundary rest = true) :
    ∀ c t, rest = c :: t → isNumberChar c = false := by
  intro c t he
  subst he
  simpa [numBoundary] using h

/-- The central round-trip invariant, by induction on fuel: parsing the
serialization of any well-formed value (element list, member list) consumes
exactly it and returns it. -/
theorem parse_serialize (fuel : Nat) :
    (∀ j rest, jsonWF j = true → numBoundary rest = true → jsonFuel j ≤ fuel →
      parseValue fuel (jsonSerialize j ++ rest) = some (j, rest)) ∧
    (∀ es acc rest, jsonArrWF es = true → es ≠ [] → elemsFuel es ≤ fuel →
      parseElems fuel (serializeElems es ++ ']' :: rest) acc = some (acc ++ es, rest)) ∧
    (∀ fs acc rest, jsonObjWF fs = true → sortedKeysB fs = true → fs ≠ [] →
      (∀ ka ∈ acc.map Prod.fst, ∀ kf ∈ fs.map Prod.fst, strLt ka kf = true) →
      membersFuel fs ≤ fuel →
      parseMembers fuel (serializeMembers fs ++ '\x7d' :: rest) acc =
        some (acc ++ fs, rest)) := by
  induction fuel with
  | zero =>
    refine ⟨?_, ?_, ?_⟩
    · intro j rest _ _ hf
      have := jsonFuel_pos j
      omega
    · intro es acc rest _ hne hf
      cases es with
      | nil => exact absurd rfl hne
      | cons e es =>
        simp only [elemsFuel] at hf
        omega
    · intro fs acc rest _ _ hne _ hf
      cases fs with
      | nil => exact absurd rfl hne
      | cons kv fs =>
        obtain ⟨k, v⟩ := kv
        simp only [membersFuel] at hf
        omega
  | succ fuel ih =>
    obtain ⟨ihv, ihe, ihm⟩ := ih
    refine ⟨?_, ?_, ?_⟩
    · intro j rest hwf hnb hf
      cases j with
      | null => rfl
      | bool b => cases b <;> rfl
      | num lx =>
        simp only [jsonWF, Bool.and_eq_true] at hwf
        obtain ⟨hval, hall⟩ := hwf
        obtain ⟨c, t, rfl, hc⟩ := validNumber_head hval
        obtain ⟨hws, h7b, h5b, hqc, ht, hff, hn⟩ := numStart_facts hc
        have htake := takeWhile_all_boundary (l := c :: t) (r := rest) hall
          (numBoundary_spec hnb)
        show parseValue (fuel + 1) ((c :: t) ++ rest) = some (.num (c :: t), rest)
        simp only [List.cons_append] at htake ⊢
        simp only [parseValue, skipWS_cons_of_neg hws, h7b, h5b, hqc, ht, hff, hn,
          Bool.false_eq_true, if_false, hc, if_true, htake.1, htake.2, hval]
      | str s =>
        show parseValue (fuel + 1) ((qc :: escapeString s ++ [qc]) ++ rest) =
          some (.str s, rest)
        have heq : (qc :: escapeString s ++ [qc]) ++ rest =
            qc :: (escapeString s ++ qc :: rest) := by simp
        rw [heq]
        have hlen : s.length + 1 ≤ (escapeString s ++ qc :: rest).length + 1 := by
          have := escapeString_length s
          simp only [List.length_append, List.length_cons]
          omega
        simp only [parseValue, skipWS_cons_of_neg (show isWSChar qc = false from by decide),
          show (qc == '\x7b') = false from by decide,
          show (qc == '[') = false from by decide,
          show (qc == qc) = true from by decide,
          Bool.false_eq_true, if_false, if_true,
          parseStringBody_escapeString s rest _ hlen]
        rfl
      | arr es =>
        cases es with
        | nil => rfl
        | cons e es' =>
          simp only [jsonWF] at hwf
          have hWFe : jsonWF e = true := by
            simp only [jsonArrWF, Bool.and_eq_true] at hwf
            exact hwf.1
          have hfe : elemsFuel (e :: es') ≤ fuel := by
            simp only [jsonFuel] at hf
            omega
          have happ := ihe (e :: es') [] rest hwf (List.cons_ne_nil _ _) hfe
          obtain ⟨c0, t0, hs0, hws0, hrb0, hcb0⟩ := jsonSerialize_head e hWFe
          have hshape : ∃ u, serializeElems (e :: es') ++ ']' :: rest = c0 :: u := by
            cases es' <;> simp [serializeElems, hs0]
          obtain ⟨u, hu⟩ := hshape
          show parseValue (fuel + 1) (('[' :: serializeElems (e :: es') ++ [']']) ++ rest) =
            some (.arr (e :: es'), rest)
          have heq : ('[' :: serializeElems (e :: es') ++ [']']) ++ rest =
              '[' :: (serializeElems (e :: es') ++ ']' :: rest) := by simp
          rw [heq]
          simp only [parseValue, skipWS_cons_of_neg (show isWSChar '[' = false from by decide),
            show ('[' == '\x7b') = false from by decide,
            show ('[' == '[') = true from by decide,
            Bool.false_eq_true, if_false, if_true, hu,
            skipWS_cons_of_neg hws0, hrb0]
          rw [← hu, happ]
          rfl
      | obj fs =>
        cases fs with
        | nil => rfl
        | cons kv fs' =>
          obtain ⟨k, v⟩ := kv
          simp only [jsonWF, Bool.and_eq_true] at hwf
          obtain ⟨hsort, hWFfs⟩ := hwf
          have hff : membersFuel ((k, v) :: fs') ≤ fuel := by
            simp only [jsonFuel] at hf
            omega
          have happ := ihm ((k, v) :: fs') [] rest hWFfs hsort (List.cons_ne_nil _ _)
            (fun ka hka => absurd hka (by simp)) hff
          show parseValue (fuel + 1)
              (('\x7b' :: serializeMembers ((k, v) :: fs') ++ ['\x7d']) ++ rest) =
            some (.obj ((k, v) :: fs'), rest)
          have heq : ('\x7b' :: serializeMembers ((k, v) :: fs') ++ ['\x7d']) ++ rest =
              '\x7b' :: (serializeMembers ((k, v) :: fs') ++ '\x7d' :: rest) := by simp
          rw [heq]
          have hshape : ∃ u, serializeMembers ((k, v) :: fs') ++ '\x7d' :: rest =
              qc :: u := by
            cases fs' <;> simp [serializeMembers]
          obtain ⟨u, hu⟩ := hshape
          simp only [parseValue, skipWS_cons_of_neg (show isWSChar '\x7b' = false from by decide),
            show ('\x7b' == '\x7b') = true from by decide, if_true, hu,
            skipWS_cons_of_neg (show isWSChar qc = false from by decide),
            show (qc == '\x7d') = false from by decide,
            Bool.false_eq_true, if_false]
          rw [← hu, happ]
          rfl
    · intro es acc rest hwf hne hf
      cases es with
      | nil => exact absurd rfl hne
      | cons e es' =>
        simp only [jsonArrWF, Bool.and_eq_true] at hwf
        obtain ⟨hWFe, hWFes⟩ := hwf
        have hfe : jsonFuel e ≤ fuel := by
          simp only [elemsFuel] at hf
          omega
        cases es' with
        | nil =>
          show parseElems (fuel + 1) (jsonSerialize e ++ ']' :: rest) acc =
            some (acc ++ [e], rest)
          simp only [parseElems,
            ihv e (']' :: rest) hWFe (by rw [numBoundary_cons]; decide) hfe,
            skipWS_cons_of_neg (show isWSChar ']' = false from by decide),
            show (']' == ',') = false from by decide,
            show (']' == ']') = true from by decide,
            Bool.false_eq_true, if_false, if_true]
        | cons e2 es'' =>
          show parseElems (fuel + 1)
              ((jsonSerialize e ++ ',' :: serializeElems (e2 :: es'')) ++ ']' :: rest) acc =
            some (acc ++ e :: e2 :: es'', rest)
          have heq : (jsonSerialize e ++ ',' :: serializeElems (e2 :: es'')) ++ ']' :: rest =
              jsonSerialize e ++ ',' :: (serializeElems (e2 :: es'') ++ ']' :: rest) := by
            simp
          rw [heq]
          have hfe2 : elemsFuel (e2 :: es'') ≤ fuel := by
            simp only [elemsFuel] at hf ⊢
            omega
          simp only [parseElems,
            ihv e (',' :: (serializeElems (e2 :: es'') ++ ']' :: rest)) hWFe
              (by rw [numBoundary_cons]; decide) hfe,
            skipWS_cons_of_neg (show isWSChar ',' = false from by decide),
            show (',' == ',') = true from by decide, if_true,
            ihe (e2 :: es'') (acc ++ [e]) rest hWFes (List.cons_ne_nil _ _) hfe2]
          simp
    · intro fs acc rest hwf hsort hne hord hf
      cases fs with
      | nil => exact absurd rfl hne
      | cons kv fs' =>
        obtain ⟨k, v⟩ := kv
        simp only [jsonObjWF, Bool.and_eq_true] at hwf
        obtain ⟨hWFv, hWFfs⟩ := hwf
        have hfv : jsonFuel v ≤ fuel := by
          simp only [membersFuel] at hf
          omega
        have hacck : ∀ kv ∈ acc, strLt kv.1 k = true := by
          intro kv hm
          exact hord kv.1 (List.mem_map_of_mem _ hm) k (List.mem_cons_self _ _)
        cases fs' with
        | nil =>
          show parseMembers (fuel + 1)
              ((qc :: escapeString k ++ qc :: ':' :: jsonSerialize v) ++ '\x7d' :: rest) acc =
            some (acc ++ [(k, v)], rest)
          have heq : (qc :: escapeString k ++ qc :: ':' :: jsonSerialize v) ++ '\x7d' :: rest =
              qc :: (escapeString k ++ qc :: (':' :: (jsonSerialize v ++ '\x7d' :: rest))) := by
            simp
          rw [heq]
          have hlen : k.length + 1 ≤
              (escapeString k ++ qc :: (':' :: (jsonSerialize v ++ '\x7d' :: rest))).length + 1 := by
            have := escapeString_length k
            simp only [List.length_append, List.length_cons]
            omega
          simp only [parseMembers, skipWS_cons_of_neg (show isWSChar qc = false from by decide),
            show (qc == qc) = true from by decide, if_true,
            parseStringBody_escapeString k _ _ hlen,
            skipWS_cons_of_neg (show isWSChar ':' = false from by decide),
            show (':' == ':') = true from by decide,
            ihv v ('\x7d' :: rest) hWFv (by rw [numBoundary_cons]; decide) hfv,
            skipWS_cons_of_neg (show isWSChar '\x7d' = false from by decide),
            show ('\x7d' == ',') = false from by decide,
            show ('\x7d' == '\x7d') = true from by decide,
            Bool.false_eq_true, if_false, if_true,
            insertField_append k v acc hacck]
        | cons kv2 fs'' =>
          obtain ⟨k2, v2⟩ := kv2
          show parseMembers (fuel + 1)
              ((qc :: escapeString k ++ qc :: ':' :: jsonSerialize v ++
                ',' :: serializeMembers ((k2, v2) :: fs'')) ++ '\x7d' :: rest) acc =
            some (acc ++ (k, v) :: (k2, v2) :: fs'', rest)
          have heq : (qc :: escapeString k ++ qc :: ':' :: jsonSerialize v ++
                ',' :: serializeMembers ((k2, v2) :: fs'')) ++ '\x7d' :: rest =
              qc :: (escapeString k ++ qc :: (':' :: (jsonSerialize v ++
                ',' :: (serializeMembers ((k2, v2) :: fs'') ++ '\x7d' :: rest)))) := by
            simp
          rw [heq]
          have hlen : k.length + 1 ≤
              (escapeString k ++ qc :: (':' :: (jsonSerialize v ++
                ',' :: (serializeMembers ((k2, v2) :: fs'') ++ '\x7d' :: rest)))).length + 1 := by
            have := escapeString_length k
            simp only [List.length_append, List.length_cons]
            omega
          have hsort' : sortedKeysB ((k2, v2) :: fs'') = true := sortedKeysB_tail hsort
          have hf2 : membersFuel ((k2, v2) :: fs'') ≤ fuel := by
            simp only [membersFuel] at hf ⊢
            omega
          have hord' : ∀ ka ∈ (acc ++ [(k, v)]).map Prod.fst,
              ∀ kf ∈ ((k2, v2) :: fs'').map Prod.fst, strLt ka kf = true := by
            intro ka hka kf hkf
            simp only [List.map_append, List.mem_append, List.map_cons,
              List.mem_cons, List.map_nil, List.mem_singleton] at hka
            cases hka with
            | inl hm => exact hord ka hm kf (List.mem_cons_of_mem _ hkf)
            | inr he =>
              rcases he with he | he
              · subst he
                exact sortedKeysB_head_lt hsort kf hkf
              · simp at he
          have hrec := ihm ((k2, v2) :: fs'') (acc ++ [(k, v)]) rest hWFfs hsort'
            (List.cons_ne_nil _ _) hord' hf2
          simp only [parseMembers, skipWS_cons_of_neg (show isWSChar qc = false from by decide),
            show (qc == qc) = true from by decide, if_true,
            parseStringBody_escapeString k _ _ hlen,
            skipWS_cons_of_neg (show isWSChar ':' = false from by decide),
            show (':' == ':') = true from by decide,
            ihv v (',' :: (serializeMembers ((k2, v2) :: fs'') ++ '\x7d' :: rest)) hWFv
              (by rw [numBoundary_cons]; decide) hfv,
            skipWS_cons_of_neg (show isWSChar ',' = false from by decide),
            show (',' == ',') = true from by decide, if_true,
            insertField_append k v acc hacck, hrec]
          simp

/-- Serialize-then-parse is the identity on well-formed JSON values. -/
theorem jsonParse_jsonSerialize (j : Json) (hwf : jsonWF j = true) :
    jsonParse (jsonSerialize j) = some j := by
  have hb : jsonFuel j ≤ (jsonSerialize j).length + 1 := by
    have := jsonFuel_le j hwf
    omega
  have h := (parse_serialize ((jsonSerialize j).length + 1)).1 j [] hwf rfl hb
  rw [List.append_nil] at h
  simp [jsonParse, h, skipWS]

/-! ## The data model of main.go -/

/-- `Config` (main.go:22-25): the persistent CLI settings. -/
structure Config where
  InspectorID : Str
  LocalEndpoint : Str

/-- `WebhookPayload` (main.go:29-35): the structure decoded from each
websocket frame. `Headers` and `Query` model `map[string]string` as sorted
association lists; `Body` models `map[string]interface{}` as a `Json` value
that is either an object or `null` (the nil map). -/
structure WebhookPayload where
  ID : Str
  Headers : List (Str × Str)
  Body : Json
  Method : Str
  Query : List (Str × Str)

/-- ASCII lowercasing, for Go's case-insensitive JSON field-name match
(`encoding/json` falls back to an `EqualFold` comparison when no exact tag
match exists; the struct tags here are all lowercase ASCII). -/
def lowerAscii (c : Char) : Char :=
  if 0x41 ≤ c.toNat && c.toNat ≤ 0x5A then Char.ofNat (c.toNat + 0x20) else c

/-- Case-insensitive field-name comparison (ASCII folding). -/
def foldEq (a b : Str) : Bool :=
  a.map lowerAscii == b.map lowerAscii

/-- The JSON object entries that feed a struct field named `name`: Go
iterates the object's keys and routes every key that matches the field tag
(case-insensitively) to that field, later entries overwriting earlier ones.
The canonical sorted object loses the textual order, so this is
deterministic only when at most one key matches — which every theorem below
either assumes or guarantees. -/
def fieldValue (name : Str) (fs : List (Str × Json)) : Option Json :=
  ((fs.filter (fun kv => foldEq kv.1 name)).map Prod.snd).getLast?

/-- Decoding a JSON value into a Go `string` field: absent and `null` leave
the zero value `""`; a string stores its value; anything else is an
`UnmarshalTypeError`. -/
def decodeStrField : Option Json → Option Str
  | none => some []
  | some .null => some []
  | some (.str s) => some s
  | some _ => none

/-- Decoding a JSON value into a `map[string]string` field: absent and
`null` leave the nil map; an object requires every value to be a string
(`null` stores the zero value `""`); anything else is a type error. -/
def decodeStrMapField (v : Option Json) : Option (List (Str × Str)) :=
  match v with
  | none => some []
  | some .null => some []
  | some (.obj fs) => decodeStrEntries fs
  | some _ => none
where
  decodeStrEntries : List (Str × Json) → Option (List (Str × Str))
    | [] => some []
    | (k, .str s) :: rest => (decodeStrEntries rest).map ((k, s) :: ·)
    | (k, .null) :: rest => (decodeStrEntries rest).map ((k, []) :: ·)
    | _ => none

/-- Decoding a JSON value into a `map[string]interface{}` field: absent and
`null` leave the nil map (modeled as `Json.null`); an object is stored as
is; anything else is a type error. -/
def decodeBodyField : Option Json → Option Json
  | none => some .null
  | some .null => some .null
  | some (.obj fs) => some (.obj fs)
  | some _ => none

/-- Decoding a parsed JSON value into `WebhookPayload`: the top level must
be an object (or `null`, which leaves the zero struct); each field is
routed by (case-insensitive) name. Any field type error makes the whole
`json.Unmarshal` call return an error — the read loop only looks at the
error, so the partially-filled struct Go leaves behind is irrelevant. -/
def decodePayload : Json → Option WebhookPayload
  | .null => some ⟨[], [], .null, [], []⟩
  | .obj fs => do
    let id ← decodeStrField (fieldValue ['i', 'd'] fs)
    let headers ← decodeStrMapField (fieldValue ['h', 'e', 'a', 'd', 'e', 'r', 's'] fs)
    let body ← decodeBodyField (fieldValue ['b', 'o', 'd', 'y'] fs)
    let method ← decodeStrField (fieldValue ['m', 'e', 't', 'h', 'o', 'd'] fs)
    let query ← decodeStrMapField (fieldValue ['q', 'u', 'e', 'r', 'y'] fs)
    pure ⟨id, headers, body, method, query⟩
  | _ => none

/-- The model of `json.Unmarshal(message, &payload)` (main.go:151): parse
the frame bytes, then populate the struct; `none` models `err != nil`. -/
def unmarshalPayload (msg : Str) : Option WebhookPayload :=
  (jsonParse msg).bind decodePayload

/-! ## net/url: the subset used by forwardWebhook

`forwardWebhook` calls `url.Parse`, `u.Query()`, `q.Set`, `q.Encode` and
`u.String()`. `url.Values` (a `map[string][]string`) is modeled as a
key-sorted association list (`Encode` emits keys in sorted order, so the
sorted list is the canonical form of the map). -/

/-- `url.Parse` rejects URLs containing ASCII control bytes. -/
def stringContainsCTL (s : Str) : Bool :=
  s.any (fun c => c.toNat < 0x20 || c.toNat == 0x7F)

/-- The pieces of a parsed URL that the relay reads or rewrites: everything
before the query (scheme, host and path, kept opaque because the relay
never splits them), the raw query, and the fragment. -/
structure GoURL where
  beforeQuery : Str
  RawQuery : Str
  Fragment : Str

/-- Split at the first occurrence of `sep`: the prefix and, when `sep`
occurs, the suffix after it. -/
def splitFirst (sep : Char) : Str → Str × Option Str
  | [] => ([], none)
  | c :: t =>
    if c == sep then ([], some t)
    else
      let p := splitFirst sep t
      (c :: p.1, p.2)

/-- Model of `url.Parse` (main.go:172) restricted to the components
`forwardWebhook` touches: the fragment is cut at the first `#`, the raw
query at the first `?`; parsing fails on ASCII control bytes and on a URL
that starts with `:` ("missing protocol scheme"). Percent-escape validation
inside the opaque scheme/host/path prefix is not modeled. -/
def urlParse (raw : Str) : Option GoURL :=
  if stringContainsCTL raw then none
  else if raw.head? == some ':' then none
  else
    let f := splitFirst '#' raw
    let q := splitFirst '?' f.1
    some ⟨q.1, q.2.getD [], f.2.getD []⟩

/-- `u.String()`: reassemble, writing `?query` when the query is non-empty
and `#fragment` when the fragment is non-empty. -/
def GoURL.render (u : GoURL) : Str :=
  u.beforeQuery ++ (if u.RawQuery.isEmpty then [] else '?' :: u.RawQuery) ++
    (if u.Fragment.isEmpty then [] else '#' :: u.Fragment)

/-- `url.Values` as a canonical sorted association list. -/
abbrev Values := List (Str × List Str)

/-- `Values.Set` (main.go:182): replace all values of the key by one. -/
def valuesSet (k : Str) (v : Str) (vs : Values) : Values :=
  insertField k [v] vs

/-- `Values.Add`: append one value for the key, as `ParseQuery` does. -/
def valuesAdd (k : Str) (v : Str) : Values → Values
  | [] => [(k, [v])]
  | (k', vl) :: rest =>
    if strLt k k' then (k, [v]) :: (k', vl) :: rest
    else if k = k' then (k', vl ++ [v]) :: rest
    else (k', vl) :: valuesAdd k v rest

/-- UTF-8 encoding of one scalar value. -/
def utf8Bytes (c : Char) : List Nat :=
  let n := c.toNat
  if n < 0x80 then [n]
  else if n < 0x800 then [0xC0 + n / 64, 0x80 + n % 64]
  else if n < 0x10000 then [0xE0 + n / 4096, 0x80 + n / 64 % 64, 0x80 + n % 64]
  else [0xF0 + n / 262144, 0x80 + n / 4096 % 64, 0x80 + n / 64 % 64, 0x80 + n % 64]

def strBytes (s : Str) : List Nat := s.flatMap utf8Bytes

/-- Strict UTF-8 decoding (rejecting overlong forms and surrogates). Go
would keep invalid bytes in the string; this model instead fails the
unescape, which only matters for inputs that are already invalid UTF-8. -/
def utf8Decode : List Nat → Option Str
  | [] => some []
  | b :: rest =>
    if b < 0x80 then (utf8Decode rest).map (Char.ofNat b :: ·)
    else if b < 0xC2 then none
    else if b < 0xE0 then
      match rest with
      | b2 :: rest2 =>
        if 0x80 ≤ b2 && b2 < 0xC0 then
          (utf8Decode rest2).map (Char.ofNat ((b - 0xC0) * 64 + (b2 - 0x80)) :: ·)
        else none
      | [] => none
    else if b < 0xF0 then
      match rest with
      | b2 :: b3 :: rest2 =>
        if (0x80 ≤ b2 && b2 < 0xC0) && (0x80 ≤ b3 && b3 < 0xC0) then
          let n := (b - 0xE0) * 4096 + (b2 - 0x80) * 64 + (b3 - 0x80)
          if 0x800 ≤ n && !(0xD800 ≤ n && n < 0xE000) then
            (utf8Decode rest2).map (Char.ofNat n :: ·)
          else none
        else none
      | _ => none
    else if b < 0xF5 then
      match rest with
      | b2 :: b3 :: b4 :: rest2 =>
        if (0x80 ≤ b2 && b2 < 0xC0) && ((0x80 ≤ b3 && b3 < 0xC0) && (0x80 ≤ b4 && b4 < 0xC0)) then
          let n := (b - 0xF0) * 262144 + (b2 - 0x80) * 4096 + (b3 - 0x80) * 64 + (b4 - 0x80)
          if 0x10000 ≤ n && n ≤ 0x10FFFF then
            (utf8Decode rest2).map (Char.ofNat n :: ·)
          else none
        else none
      | _ => none
    else none

def hexVal (b : Nat) : Option Nat :=
  if 0x30 ≤ b && b ≤ 0x39 then some (b - 0x30)
  else if 0x41 ≤ b && b ≤ 0x46 then some (b - 0x37)
  else if 0x61 ≤ b && b ≤ 0x66 then some (b - 0x57)
  else none

/-- Byte-level query unescaping: `%XX` becomes the byte, `+` a space. -/
def unescapeBytes : List Nat → Option (List Nat)
  | [] => some []
  | b :: rest =>
    if b == 0x25 then
      match rest with
      | h1 :: h2 :: rest2 =>
        match hexVal h1, hexVal h2 with
        | some v1, some v2 => (unescapeBytes rest2).map ((v1 * 16 + v2) :: ·)
        | _, _ => none
      | _ => none
    else if b == 0x2B then (unescapeBytes rest).map (0x20 :: ·)
    else (unescapeBytes rest).map (b :: ·)

/-- `url.QueryUnescape` composed over the string's UTF-8 bytes. -/
def queryUnescape (s : Str) : Option Str :=
  (unescapeBytes (strBytes s)).bind utf8Decode

/-- `url.ParseQuery` as invoked (error-ignoring) by `u.Query()`
(main.go:180): split on `&`, skip empty segments, skip segments containing
`;` (an error since Go 1.17) and pairs whose unescaping fails, and append
the rest. -/
def parseQuery (s : Str) : Values :=
  (s.splitOn '&').foldl
    (fun vs seg =>
      if seg.isEmpty then vs
      else if seg.contains ';' then vs
      else
        let p := splitFirst '=' seg
        match queryUnescape p.1, queryUnescape (p.2.getD []) with
        | some k, some v => valuesAdd k v vs
        | _, _ => vs)
    []

def isUnreservedQueryChar (c : Char) : Bool :=
  (0x41 ≤ c.toNat && c.toNat ≤ 0x5A) || (0x61 ≤ c.toNat && c.toNat ≤ 0x7A) ||
  (0x30 ≤ c.toNat && c.toNat ≤ 0x39) ||
  c == '-' || c == '_' || c == '.' || c == '~'

def hexUp (n : Nat) : Char :=
  if n < 10 then Char.ofNat (0x30 + n) else Char.ofNat (0x41 + (n - 10))

/-- `url.QueryEscape`: unreserved characters pass, space becomes `+`, every
other byte becomes uppercase `%XX`. -/
def queryEscape (s : Str) : Str :=
  s.flatMap (fun c =>
    if isUnreservedQueryChar c then [c]
    else if c == ' ' then ['+']
    else (utf8Bytes c).flatMap (fun b => ['%', hexUp (b / 16), hexUp (b % 16)]))

def joinAmp : List Str → Str
  | [] => []
  | [s] => s
  | s :: rest => s ++ '&' :: joinAmp rest

/-- `Values.Encode` (main.go:184): keys in sorted order (already canonical
here), each value escaped as `k=v`, joined with `&`. -/
def valuesEncode (vs : Values) : Str :=
  joinAmp (vs.flatMap (fun kv => kv.2.map (fun v => queryEscape kv.1 ++ '=' :: queryEscape v)))

/-! ## net/http headers -/

/-- RFC 7230 token characters, as in Go's `httpguts`/`textproto` table. -/
def isTokenChar (c : Char) : Bool :=
  let n := c.toNat
  n == 0x21 || (0x23 ≤ n && n ≤ 0x27) || n == 0x2A || n == 0x2B || n == 0x2D ||
  n == 0x2E || (0x30 ≤ n && n ≤ 0x39) || (0x41 ≤ n && n ≤ 0x5A) ||
  (0x5E ≤ n && n ≤ 0x60) || (0x61 ≤ n && n ≤ 0x7A) || n == 0x7C || n == 0x7E

def upperAscii (c : Char) : Char :=
  if 0x61 ≤ c.toNat && c.toNat ≤ 0x7A then Char.ofNat (c.toNat - 0x20) else c

def canonGo (upper : Bool) : Str → Str
  | [] => []
  | c :: rest => (if upper then upperAscii c else lowerAscii c) :: canonGo (c == '-') rest

/-- `textproto.CanonicalMIMEHeaderKey`: keys made of token characters get
the canonical capitalization (uppercase at the start and after each `-`,
lowercase elsewhere); any other key is left untouched. -/
def canonicalMIMEHeaderKey (k : Str) : Str :=
  if k.all isTokenChar then canonGo true k else k

/-- `http.Header.Set` (main.go:203, 207): canonicalize the key and replace
its values by the single given value. -/
def headerSet (k v : Str) (h : List (Str × List Str)) : List (Str × List Str) :=
  insertField (canonicalMIMEHeaderKey k) [v] h

/-! ## forwardWebhook -/

inductive FwdError where
  | urlParseError
  | bodyMarshalError
  | newRequestError

/-- The outbound request as handed to `client.Do` (main.go:210). -/
structure HTTPRequest where
  Method : Str
  URL : GoURL
  Header : List (Str × List Str)
  BodyBytes : Str

/-- Model of `json.Marshal(payload.Body)` (main.go:188). On the values of
the `Json` model (which is exactly the JSON-representable values) the
marshaler always succeeds; the failure cases of `json.Marshal` (channels,
functions, non-finite floats, ...) are not representable in `Json`. -/
def jsonMarshal (j : Json) : Option Str := some (jsonSerialize j)

/-- `http.NewRequest`'s method validation: non-empty and all token
characters (after the empty method defaults to GET). -/
def validMethod (m : Str) : Bool := !m.isEmpty && m.all isTokenChar

def contentTypeKey : Str := ['C', 'o', 'n', 't', 'e', 'n', 't', '-', 'T', 'y', 'p', 'e']

def appJsonVal : Str := ['a', 'p', 'p', 'l', 'i', 'c', 'a', 't', 'i', 'o', 'n', '/',
  'j', 's', 'o', 'n']

/-- The query-merge loop of forwardWebhook (main.go:180-183): `q.Set(key,
value)` for every entry of the event query over the endpoint's parsed
query. -/
def mergeEventQuery (base : Values) (q : List (Str × Str)) : Values :=
  q.foldl (fun vs kv => valuesSet kv.1 kv.2 vs) base

/-- Embedding of `forwardWebhook` (main.go:170-217). The result is the
request passed to `client.Do`, or the error on which the function returned
early without any request (each error path only prints). The response
handling after `client.Do` is external I/O and is not part of the model. -/
def forwardWebhook (urlStr : Str) (payload : WebhookPayload) : Except FwdError HTTPRequest :=
  match urlParse urlStr with
  | none => .error .urlParseError
  | some u =>
    let u' := if !payload.Query.isEmpty then
        { u with RawQuery := valuesEncode (mergeEventQuery (parseQuery u.RawQuery) payload.Query) }
      else u
    match jsonMarshal payload.Body with
    | none => .error .bodyMarshalError
    | some bodyBytes =>
      let method := if payload.Method.isEmpty then ['G', 'E', 'T'] else payload.Method
      if !validMethod method then .error .newRequestError
      else
        let hdr := payload.Headers.foldl (fun h kv => headerSet kv.1 kv.2 h) []
        .ok ⟨method, u', headerSet contentTypeKey appJsonVal hdr, bodyBytes⟩

/-! ## The read loop, the ping goroutine, and the reconnect loop -/

/-- What one read-loop iteration does with one frame (main.go:150-165). -/
inductive RelayAction where
  | decodeFailed
  | ignoredDifferentID
  | forwarded (result : Except FwdError HTTPRequest)

/-- One iteration of the read loop body for a successfully read frame:
decode, filter by id, forward (main.go:150-164). -/
def processMessage (config : Config) (msg : Str) : RelayAction :=
  match unmarshalPayload msg with
  | none => .decodeFailed
  | some payload =>
    if payload.ID ≠ config.InspectorID then .ignoredDifferentID
    else .forwarded (forwardWebhook config.LocalEndpoint payload)

/-- How many times a relay action invoked forwardWebhook. -/
def forwardCount : RelayAction → Nat
  | .forwarded _ => 1
  | _ => 0

/-- The read loop (main.go:143-165) over a finite trace of read results
(`none` models a `ReadMessage` error): processes frames in order and
returns to the caller at the first read error. -/
def readLoop (config : Config) : List (Option Str) → List RelayAction
  | [] => []
  | none :: _ => []
  | some msg :: rest => processMessage config msg :: readLoop config rest

/-- Whether the read loop returned (to the reconnect loop) within the
observed trace of read results: exactly when some read failed. -/
def readLoopReturns : List (Option Str) → Bool
  | [] => false
  | none :: _ => true
  | some _ :: rest => readLoopReturns rest

/-- One observable event of the ping goroutine (main.go:126-140): a ticker
tick whose `WriteControl` either succeeds or fails, or the `done` channel
closing. -/
inductive HBEvent where
  | tick (sendOk : Bool)
  | doneClosed

inductive HBOutcome where
  | pingSendFailed
  | stoppedByDone
  | stillRunning

/-- The ping goroutine (main.go:126-140): on each tick it sends a ping and
returns if the send fails; it returns when `done` closes; it does nothing
else — in particular it never closes the connection and never signals the
read loop. -/
def pingLoop : List HBEvent → HBOutcome
  | [] => .stillRunning
  | .tick ok :: rest => if ok then pingLoop rest else .pingSendFailed
  | .doneClosed :: _ => .stoppedByDone

/-- One iteration of the reconnect loop in `main` (main.go:88-100): how
long `connectAndListen` ran (dial failure or connection lifetime) and
whether the non-blocking `select` on `done` saw the channel closed. -/
structure SupIter where
  duration : Nat
  doneSet : Bool

inductive SupEvent where
  | dialAttempt (t : Nat)
  | doneCheck (t : Nat) (wasSet : Bool)
  | sleepDelay (t : Nat) (d : Nat)

/-- The timed event trace of the reconnect goroutine (main.go:88-100)
started at time `t`: dial (inside `connectAndListen`), run until the
session ends, check `done` (return if set), sleep 5 seconds, repeat. -/
def supervisorTrace : Nat → List SupIter → List SupEvent
  | _, [] => []
  | t, it :: rest =>
    .dialAttempt t :: .doneCheck (t + it.duration) it.doneSet ::
      (if it.doneSet then []
       else .sleepDelay (t + it.duration) 5 :: supervisorTrace (t + it.duration + 5) rest)

def dialTimes (evs : List SupEvent) : List Nat :=
  evs.filterMap (fun e => match e with | .dialAttempt t => some t | _ => none)

/-! ## Map lemmas for the query merge and the header fold -/

theorem lookupField_insertField_self {α : Type} (k : Str) (v : α) (l : List (Str × α)) :
    lookupField k (insertField k v l) = some v := by
  induction l with
  | nil => simp [insertField, lookupField]
  | cons kv rest ih =>
    obtain ⟨k', v'⟩ := kv
    by_cases h1 : strLt k k'
    · simp [insertField, h1, lookupField]
    · by_cases h2 : k = k'
      · subst h2
        simp [insertField, strLt_irrefl, lookupField]
      · simp [insertField, h1, h2, lookupField, ih]

theorem lookupField_insertField_ne {α : Type} {k k2 : Str} (v : α) (l : List (Str × α))
    (h : k ≠ k2) :
    lookupField k2 (insertField k v l) = lookupField k2 l := by
  have h2k : k2 ≠ k := Ne.symm h
  induction l with
  | nil => simp [insertField, lookupField, h2k]
  | cons kv rest ih =>
    obtain ⟨k', v'⟩ := kv
    by_cases h1 : strLt k k'
    · simp [insertField, h1, lookupField, h2k]
    · by_cases he : k = k'
      · subst he
        simp [insertField, strLt_irrefl, lookupField, h2k]
      · simp [insertField, h1, he, lookupField, ih]

theorem lookupField_eq_none_of_not_mem {α : Type} {k : Str} {l : List (Str × α)}
    (h : k ∉ l.map Prod.fst) : lookupField k l = none := by
  induction l with
  | nil => rfl
  | cons kv rest ih =>
    obtain ⟨k', v'⟩ := kv
    simp only [List.map_cons, List.mem_cons] at h
    push_neg at h
    simp [lookupField, h.1, ih h.2]

/-- The merged query maps every event key to exactly the event value and
every other key to its base value. -/
theorem mergeEventQuery_lookup (base : Values) (q : List (Str × Str)) (k : Str)
    (hnd : (q.map Prod.fst).Nodup) :
    lookupField k (mergeEventQuery base q) =
      match lookupField k q with
      | some v => some [v]
      | none => lookupField k base := by
  induction q generalizing base with
  | nil => rfl
  | cons kv q' ih =>
    obtain ⟨k1, v1⟩ := kv
    simp only [List.map_cons, List.nodup_cons] at hnd
    have hstep : mergeEventQuery base ((k1, v1) :: q') =
        mergeEventQuery (valuesSet k1 v1 base) q' := rfl
    rw [hstep, ih _ hnd.2]
    by_cases he : k = k1
    · subst he
      have hq' : lookupField k q' = none :=
        lookupField_eq_none_of_not_mem (by simpa using hnd.1)
      simp [lookupField, hq', valuesSet, lookupField_insertField_self]
    · simp [lookupField, fun h => he h, he]
      cases lookupField k q' with
      | some v => rfl
      | none => simp [valuesSet, lookupField_insertField_ne _ _ (fun h => he h.symm)]

theorem lookupField_foldl_headerSet_not_mem (hs : List (Str × Str))
    (acc : List (Str × List Str)) (k : Str)
    (hk : ∀ kv ∈ hs, canonicalMIMEHeaderKey kv.1 ≠ k) :
    lookupField k (hs.foldl (fun h kv => headerSet kv.1 kv.2 h) acc) =
      lookupField k acc := by
  induction hs generalizing acc with
  | nil => rfl
  | cons kv rest ih =>
    obtain ⟨k1, v1⟩ := kv
    have h1 : canonicalMIMEHeaderKey k1 ≠ k := hk (k1, v1) (by simp)
    simp only [List.foldl_cons]
    rw [ih _ (fun kv hm => hk kv (by simp [hm]))]
    exact lookupField_insertField_ne _ _ h1

theorem lookupField_foldl_headerSet_mem :
    ∀ (hs : List (Str × Str)) (acc : List (Str × List Str)) (k v : Str),
      (k, v) ∈ hs →
      (hs.map (fun kv => canonicalMIMEHeaderKey kv.1)).Nodup →
      lookupField (canonicalMIMEHeaderKey k)
        (hs.foldl (fun h kv => headerSet kv.1 kv.2 h) acc) = some [v]
  | [], _, _, _, hmem, _ => by simp at hmem
  | (k1, v1) :: rest, acc, k, v, hmem, hnd => by
    simp only [List.map_cons, List.nodup_cons] at hnd
    simp only [List.mem_cons] at hmem
    simp only [List.foldl_cons]
    cases hmem with
    | inl he =>
      injection he with he1 he2
      subst he1
      subst he2
      have hknot : ∀ kv ∈ rest,
          canonicalMIMEHeaderKey kv.1 ≠ canonicalMIMEHeaderKey k := by
        intro kv hm hc
        have hmm : canonicalMIMEHeaderKey kv.1 ∈
            rest.map (fun x => canonicalMIMEHeaderKey x.1) :=
          List.mem_map_of_mem _ hm
        rw [hc] at hmm
        exact hnd.1 hmm
      rw [lookupField_foldl_headerSet_not_mem _ _ _ hknot]
      exact lookupField_insertField_self _ _ _
    | inr hm =>
      exact lookupField_foldl_headerSet_mem rest (headerSet k1 v1 acc) k v hm hnd.2

/-- The shape of every successfully built request: what `forwardWebhook`
hands to `client.Do`, in terms of its inputs. -/
theorem forwardWebhook_ok_spec {endpoint : Str} {p : WebhookPayload} {req : HTTPRequest}
    (hr : forwardWebhook endpoint p = .ok req) :
    ∃ u, urlParse endpoint = some u ∧
      req.Method = (if p.Method.isEmpty then ['G', 'E', 'T'] else p.Method) ∧
      req.URL = (if !p.Query.isEmpty then
          { u with RawQuery := valuesEncode (mergeEventQuery (parseQuery u.RawQuery) p.Query) }
        else u) ∧
      req.Header = headerSet contentTypeKey appJsonVal
        (p.Headers.foldl (fun h kv => headerSet kv.1 kv.2 h) []) ∧
      req.BodyBytes = jsonSerialize p.Body := by
  unfold forwardWebhook at hr
  cases hu : urlParse endpoint with
  | none =>
    rw [hu] at hr
    simp at hr
  | some u =>
    rw [hu] at hr
    simp only [jsonMarshal] at hr
    by_cases hm : (!validMethod (if p.Method.isEmpty then ['G', 'E', 'T'] else p.Method)) = true
    · rw [if_pos hm] at hr
      simp at hr
    · rw [if_neg hm] at hr
      simp only [Except.ok.injEq] at hr
      exact ⟨u, rfl, by rw [← hr], by rw [← hr], by rw [← hr], by rw [← hr]⟩

/-! ## Claims -/

/-- C1: for every decoded inbound event, the read loop invokes forward
exactly once when the event's id equals the configured inspector id, and
never invokes forward when the id differs — the event is discarded with no
side effect beyond the informational note. -/
theorem relay_forwards_iff_id_matches (cfg : Config) (msg : Str) (p : WebhookPayload)
    (rest : List (Option Str)) (hdec : unmarshalPayload msg = some p) :
    readLoop cfg (some msg :: rest) = processMessage cfg msg :: readLoop cfg rest ∧
    (p.ID = cfg.InspectorID → forwardCount (processMessage cfg msg) = 1) ∧
    (p.ID ≠ cfg.InspectorID →
      processMessage cfg msg = .ignoredDifferentID ∧
      forwardCount (processMessage cfg msg) = 0) := by
  refine ⟨rfl, ?_, ?_⟩
  · intro he
    simp [processMessage, hdec, he, forwardCount]
  · intro hne
    constructor <;> simp [processMessage, hdec, hne, forwardCount]

def c1CfgMatch : Config := ⟨['a', 'b', 'c'], "http://localhost:9000/hook".toList⟩

def c1CfgOther : Config := ⟨['z'], "http://localhost:9000/hook".toList⟩

def c1Frame : Str := "\x7b\"id\":\"abc\",\"method\":\"POST\"\x7d".toList

def c1Payload : WebhookPayload := ⟨['a', 'b', 'c'], [], .null, ['P', 'O', 'S', 'T'], []⟩

theorem relay_forwards_iff_id_matches_witness :
    unmarshalPayload c1Frame = some c1Payload ∧
    forwardCount (processMessage c1CfgMatch c1Frame) = 1 ∧
    processMessage c1CfgOther c1Frame = .ignoredDifferentID :=
  ⟨rfl,
    (relay_forwards_iff_id_matches c1CfgMatch c1Frame c1Payload [] rfl).2.1 rfl,
    ((relay_forwards_iff_id_matches c1CfgOther c1Frame c1Payload [] rfl).2.2
      (by decide)).1⟩

/-- C6: a frame whose bytes fail to decode as a JSON-encoded event is
logged and skipped: the loop records the failure, continues with the
remaining frames, and never invokes forward for it. -/
theorem decode_failure_skips_frame (cfg : Config) (msg : Str)
    (rest : List (Option Str)) (hbad : unmarshalPayload msg = none) :
    processMessage cfg msg = .decodeFailed ∧
    readLoop cfg (some msg :: rest) = .decodeFailed :: readLoop cfg rest ∧
    forwardCount (processMessage cfg msg) = 0 := by
  have h1 : processMessage cfg msg = .decodeFailed := by
    simp [processMessage, hbad]
  exact ⟨h1, by simp [readLoop, h1], by simp [h1, forwardCount]⟩

def c6Cfg : Config := ⟨['a'], "http://x".toList⟩

def c6Msg : Str := "notjson".toList

theorem decode_failure_skips_frame_witness :
    unmarshalPayload c6Msg = none ∧
    processMessage c6Cfg c6Msg = .decodeFailed ∧
    readLoop c6Cfg (some c6Msg :: [some c6Msg]) =
      .decodeFailed :: readLoop c6Cfg [some c6Msg] :=
  ⟨rfl, (decode_failure_skips_frame c6Cfg c6Msg [some c6Msg] rfl).1,
    (decode_failure_skips_frame c6Cfg c6Msg [some c6Msg] rfl).2.1⟩

/-- C7: forwardWebhook performs no HTTP request when parsing the endpoint
fails or serializing the body fails: it returns early with a reported
error, never reaching request construction or execution. -/
theorem forward_no_request_on_error (endpoint : Str) (p : WebhookPayload)
    (h : urlParse endpoint = none ∨ jsonMarshal p.Body = none) :
    ∃ e, forwardWebhook endpoint p = .error e := by
  rcases h with h | h
  · exact ⟨.urlParseError, by simp [forwardWebhook, h]⟩
  · simp [jsonMarshal] at h

def c7Endpoint : Str := "http://x\n".toList

def c7Payload : WebhookPayload := ⟨['a'], [], .null, ['P', 'O', 'S', 'T'], []⟩

theorem forward_no_request_on_error_witness :
    urlParse c7Endpoint = none ∧ ∃ e, forwardWebhook c7Endpoint c7Payload = .error e :=
  ⟨rfl, forward_no_request_on_error c7Endpoint c7Payload (Or.inl rfl)⟩

/-- C2: when the event query is non-empty, the replay URL's query is the
encoding of the event query merged into the endpoint's existing query
parameters, where the event value replaces the endpoint value on a key
collision and every non-colliding endpoint parameter is preserved. -/
theorem forward_merges_query (endpoint : Str) (p : WebhookPayload) (u : GoURL)
    (req : HTTPRequest)
    (hu : urlParse endpoint = some u)
    (hq : p.Query ≠ [])
    (hnd : (p.Query.map Prod.fst).Nodup)
    (hr : forwardWebhook endpoint p = .ok req) :
    req.URL.RawQuery = valuesEncode (mergeEventQuery (parseQuery u.RawQuery) p.Query) ∧
    ∀ k, lookupField k (mergeEventQuery (parseQuery u.RawQuery) p.Query) =
      match lookupField k p.Query with
      | some v => some [v]
      | none => lookupField k (parseQuery u.RawQuery) := by
  obtain ⟨u', hu', -, hurl, -, -⟩ := forwardWebhook_ok_spec hr
  rw [hu] at hu'
  injection hu' with hu'
  subst hu'
  refine ⟨?_, fun k => mergeEventQuery_lookup _ _ k hnd⟩
  rw [hurl, if_pos (by simp [List.isEmpty_iff, hq])]

def c2Endpoint : Str := "https://x/y?z=1".toList

def c2U : GoURL := match urlParse c2Endpoint with
  | some u => u
  | none => ⟨[], [], []⟩

def c2Payload : WebhookPayload :=
  ⟨['a'], [], .null, ['P', 'O', 'S', 'T'], [(['z'], ['2']), (['w'], ['3'])]⟩

def c2Req : HTTPRequest := match forwardWebhook c2Endpoint c2Payload with
  | .ok r => r
  | .error _ => ⟨[], ⟨[], [], []⟩, [], []⟩

theorem forward_merges_query_witness :
    urlParse c2Endpoint = some c2U ∧ c2Payload.Query ≠ [] ∧
    forwardWebhook c2Endpoint c2Payload = .ok c2Req ∧
    c2Req.URL.RawQuery =
      valuesEncode (mergeEventQuery (parseQuery c2U.RawQuery) c2Payload.Query) ∧
    lookupField ['z'] (mergeEventQuery (parseQuery c2U.RawQuery) c2Payload.Query) =
      some [['2']] ∧
    lookupField ['w'] (mergeEventQuery (parseQuery c2U.RawQuery) c2Payload.Query) =
      some [['3']] :=
  ⟨rfl, by decide, rfl,
    (forward_merges_query c2Endpoint c2Payload c2U c2Req rfl (by decide) (by decide) rfl).1,
    (forward_merges_query c2Endpoint c2Payload c2U c2Req rfl (by decide) (by decide) rfl).2 ['z'],
    (forward_merges_query c2Endpoint c2Payload c2U c2Req rfl (by decide) (by decide) rfl).2 ['w']⟩

/-- C3: the outbound request's final Content-Type header is always
application/json — even when the event's headers carry a different
Content-Type — and every other event header entry is copied onto the
request (headers with distinct canonical names do not interfere). -/
theorem forward_normalizes_content_type (endpoint : Str) (p : WebhookPayload)
    (req : HTTPRequest)
    (hr : forwardWebhook endpoint p = .ok req)
    (hnd : (p.Headers.map (fun kv => canonicalMIMEHeaderKey kv.1)).Nodup) :
    lookupField contentTypeKey req.Header = some [appJsonVal] ∧
    ∀ k v, (k, v) ∈ p.Headers → canonicalMIMEHeaderKey k ≠ contentTypeKey →
      lookupField (canonicalMIMEHeaderKey k) req.Header = some [v] := by
  obtain ⟨u, -, -, -, hhdr, -⟩ := forwardWebhook_ok_spec hr
  have hcanon : canonicalMIMEHeaderKey contentTypeKey = contentTypeKey := rfl
  constructor
  · rw [hhdr]
    have := lookupField_insertField_self (canonicalMIMEHeaderKey contentTypeKey) [appJsonVal]
      (p.Headers.foldl (fun h kv => headerSet kv.1 kv.2 h) [])
    rw [hcanon] at this
    exact this
  · intro k v hmem hne
    rw [hhdr]
    unfold headerSet
    rw [hcanon, lookupField_insertField_ne _ _ (fun he => hne he.symm)]
    exact lookupField_foldl_headerSet_mem p.Headers [] k v hmem hnd

def c3Endpoint : Str := "http://localhost:9000/hook".toList

def c3Payload : WebhookPayload :=
  ⟨['a'],
    [("Content-Type".toList, "text/plain".toList), ("X-Test".toList, ['1'])],
    .null, ['P', 'O', 'S', 'T'], []⟩

def c3Req : HTTPRequest := match forwardWebhook c3Endpoint c3Payload with
  | .ok r => r
  | .error _ => ⟨[], ⟨[], [], []⟩, [], []⟩

theorem forward_normalizes_content_type_witness :
    forwardWebhook c3Endpoint c3Payload = .ok c3Req ∧
    ("Content-Type".toList, "text/plain".toList) ∈ c3Payload.Headers ∧
    lookupField contentTypeKey c3Req.Header = some [appJsonVal] ∧
    lookupField (canonicalMIMEHeaderKey "X-Test".toList) c3Req.Header = some [['1']] :=
  ⟨rfl, by decide,
    (forward_normalizes_content_type c3Endpoint c3Payload c3Req rfl (by decide)).1,
    (forward_normalizes_content_type c3Endpoint c3Payload c3Req rfl (by decide)).2
      "X-Test".toList ['1'] (by decide) (by decide)⟩

/-- C4: the bytes forwardWebhook sends as the outbound request body, parsed
back as JSON, equal the event body — serialization followed by parsing is
the identity on (well-formed, canonically represented) JSON bodies. -/
theorem forward_body_round_trips (endpoint : Str) (p : WebhookPayload)
    (req : HTTPRequest)
    (hwf : jsonWF p.Body = true)
    (hr : forwardWebhook endpoint p = .ok req) :
    jsonParse req.BodyBytes = some p.Body := by
  obtain ⟨u, -, -, -, -, hb⟩ := forwardWebhook_ok_spec hr
  rw [hb]
  exact jsonParse_jsonSerialize _ hwf

def c4Endpoint : Str := "http://localhost:9000/hook".toList

def c4Body : Json :=
  .obj [(['a'], .arr [.num ['1'], .bool true, .null]),
        (['k'], .str ['v', '\n', '<'])]

def c4Payload : WebhookPayload := ⟨['a'], [], c4Body, ['P', 'O', 'S', 'T'], []⟩

def c4Req : HTTPRequest := match forwardWebhook c4Endpoint c4Payload with
  | .ok r => r
  | .error _ => ⟨[], ⟨[], [], []⟩, [], []⟩

theorem forward_body_round_trips_witness :
    jsonWF c4Payload.Body = true ∧
    forwardWebhook c4Endpoint c4Payload = .ok c4Req ∧
    jsonParse c4Req.BodyBytes = some c4Payload.Body :=
  ⟨rfl, rfl, forward_body_round_trips c4Endpoint c4Payload c4Req rfl rfl⟩

/-- C5 counterexample: the claim "a failed proactive ping send signals the
session as dead and unwinds the read loop" is false on the code: the ping
goroutine merely returns (main.go:133-134), closing nothing and signaling
nothing, and a read loop whose own reads keep succeeding does not return.
Witnessed by a session whose single tick's send fails while both observed
reads succeed. -/
theorem ping_failure_unwinds_read_loop_false :
    ¬ (∀ (evs : List HBEvent) (reads : List (Option Str)),
        pingLoop evs = .pingSendFailed → readLoopReturns reads = true) := by
  intro h
  have hx := h [.tick false] [some ['a'], some ['b']] rfl
  simp [readLoopReturns] at hx

/-- C5 (amended): when the proactive ping send fails the ping goroutine
terminates (processing no further events), but this by itself neither
signals the session as dead nor unwinds the read loop — the read loop
returns to the reconnect loop exactly when one of its own reads fails. -/
theorem ping_failure_only_stops_ping_goroutine (evs : List HBEvent)
    (reads : List (Option Str)) :
    pingLoop (HBEvent.tick false :: evs) = .pingSendFailed ∧
    (readLoopReturns reads = true ↔ none ∈ reads) := by
  refine ⟨rfl, ?_⟩
  induction reads with
  | nil => simp [readLoopReturns]
  | cons r rs ih =>
    cases r with
    | none => simp [readLoopReturns]
    | some m => simp [readLoopReturns, ih]

/-- C8: after a dial failure or a lost connection, the reconnect loop first
evaluates the shutdown signal — returning terminally (no further dial) when
it is set — and otherwise sleeps exactly the fixed 5-second interval before
the next dial, repeating once per session until shutdown; every delay in
the trace is the fixed 5 (no exponential backoff). -/
theorem supervisor_reconnect_cadence :
    (∀ t it rest, it.doneSet = true →
      dialTimes (supervisorTrace t (it :: rest)) = [t]) ∧
    (∀ t it rest, it.doneSet = false →
      dialTimes (supervisorTrace t (it :: rest)) =
        t :: dialTimes (supervisorTrace (t + it.duration + 5) rest)) ∧
    (∀ t it it2 rest, it.doneSet = false →
      (dialTimes (supervisorTrace t (it :: it2 :: rest))).take 2 =
        [t, t + it.duration + 5]) ∧
    (∀ t iters, (∀ it ∈ iters, it.doneSet = false) →
      (dialTimes (supervisorTrace t iters)).length = iters.length) ∧
    (∀ t iters t2 d, SupEvent.sleepDelay t2 d ∈ supervisorTrace t iters → d = 5) := by
  refine ⟨?_, ?_, ?_, ?_, ?_⟩
  · intro t it rest h
    simp [supervisorTrace, dialTimes, h]
  · intro t it rest h
    simp [supervisorTrace, dialTimes, h]
  · intro t it it2 rest h
    cases h2 : it2.doneSet <;>
      simp [supervisorTrace, dialTimes, h, h2]
  · intro t iters hall
    induction iters generalizing t with
    | nil => rfl
    | cons it rest ih =>
      have h := hall it (by simp)
      have ihr := ih (t + it.duration + 5) (fun it2 hm => hall it2 (by simp [hm]))
      simp only [supervisorTrace, dialTimes, h, Bool.false_eq_true, if_false,
        List.filterMap_cons, List.length_cons] at ihr ⊢
      omega
  · intro t iters t2 d hmem
    induction iters generalizing t with
    | nil => simp [supervisorTrace] at hmem
    | cons it rest ih =>
      cases h : it.doneSet with
      | true => simp [supervisorTrace, h] at hmem
      | false =>
        simp only [supervisorTrace, h, Bool.false_eq_true, if_false,
          List.mem_cons] at hmem
        rcases hmem with he | he | he | hmem
        · exact absurd he (by simp)
        · exact absurd he (by simp)
        · simp only [SupEvent.sleepDelay.injEq] at he
          exact he.2
        · exact ih _ hmem

theorem supervisor_reconnect_cadence_witness :
    dialTimes (supervisorTrace 0 [⟨3, true⟩]) = [0] ∧
    (dialTimes (supervisorTrace 0 [⟨2, false⟩, ⟨4, false⟩])).take 2 = [0, 7] ∧
    (dialTimes (supervisorTrace 0 [⟨2, false⟩, ⟨4, false⟩])).length = 2 :=
  ⟨supervisor_reconnect_cadence.1 0 ⟨3, true⟩ [] rfl,
    supervisor_reconnect_cadence.2.2.1 0 ⟨2, false⟩ ⟨4, false⟩ [] rfl,
    supervisor_reconnect_cadence.2.2.2.1 0 [⟨2, false⟩, ⟨4, false⟩] (by decide)⟩

/-- C9: a frame without an id field (no key matching the `id` tag under
Go's case-insensitive field routing) decodes to an event whose id is the
empty string, so with a non-empty configured inspector id the frame is
discarded without invoking forward. -/
theorem missing_id_frame_discarded (cfg : Config) (msg : Str)
    (fs : List (Str × Json)) (p : WebhookPayload)
    (hparse : jsonParse msg = some (.obj fs))
    (hnoid : ∀ kv ∈ fs, foldEq kv.1 ['i', 'd'] = false)
    (hdec : unmarshalPayload msg = some p)
    (hne : cfg.InspectorID ≠ []) :
    p.ID = [] ∧ processMessage cfg msg = .ignoredDifferentID ∧
      forwardCount (processMessage cfg msg) = 0 := by
  have hfv : fieldValue ['i', 'd'] fs = none := by
    unfold fieldValue
    rw [List.filter_eq_nil_iff.mpr (fun kv hm => by simp [hnoid kv hm])]
    rfl
  have hdec' : decodePayload (.obj fs) = some p := by
    rw [unmarshalPayload, hparse] at hdec
    simpa using hdec
  have hpid : p.ID = [] := by
    have hid : decodeStrField (fieldValue ['i', 'd'] fs) = some [] := by
      rw [hfv]
      rfl
    have hstep : decodePayload (.obj fs) = (do
        let id ← decodeStrField (fieldValue ['i', 'd'] fs)
        let headers ← decodeStrMapField (fieldValue ['h', 'e', 'a', 'd', 'e', 'r', 's'] fs)
        let body ← decodeBodyField (fieldValue ['b', 'o', 'd', 'y'] fs)
        let method ← decodeStrField (fieldValue ['m', 'e', 't', 'h', 'o', 'd'] fs)
        let query ← decodeStrMapField (fieldValue ['q', 'u', 'e', 'r', 'y'] fs)
        pure ⟨id, headers, body, method, query⟩) := rfl
    rw [hstep, hid] at hdec'
    simp only [Option.bind_eq_bind, Option.some_bind] at hdec'
    cases h2 : decodeStrMapField (fieldValue ['h', 'e', 'a', 'd', 'e', 'r', 's'] fs) with
    | none => rw [h2] at hdec'; simp at hdec'
    | some hs =>
      rw [h2] at hdec'
      simp only [Option.bind_eq_bind, Option.some_bind] at hdec'
      cases h3 : decodeBodyField (fieldValue ['b', 'o', 'd', 'y'] fs) with
      | none => rw [h3] at hdec'; simp at hdec'
      | some b =>
        rw [h3] at hdec'
        simp only [Option.bind_eq_bind, Option.some_bind] at hdec'
        cases h4 : decodeStrField (fieldValue ['m', 'e', 't', 'h', 'o', 'd'] fs) with
        | none => rw [h4] at hdec'; simp at hdec'
        | some m =>
          rw [h4] at hdec'
          simp only [Option.bind_eq_bind, Option.some_bind] at hdec'
          cases h5 : decodeStrMapField (fieldValue ['q', 'u', 'e', 'r', 'y'] fs) with
          | none => rw [h5] at hdec'; simp at hdec'
          | some q =>
            rw [h5] at hdec'
            simp only [Option.bind_eq_bind, Option.some_bind, Option.pure_def, Option.some.injEq] at hdec'
            rw [← hdec']
  have hne2 : p.ID ≠ cfg.InspectorID := by
    rw [hpid]
    exact fun hcontra => hne hcontra.symm
  refine ⟨hpid, ?_, ?_⟩ <;> simp [processMessage, hdec, hne2, forwardCount]

def c9Cfg : Config := ⟨['a', 'b', 'c'], "http://x".toList⟩

def c9Msg : Str := "\x7b\"method\":\"POST\"\x7d".toList

def c9Fields : List (Str × Json) := [("method".toList, .str "POST".toList)]

def c9Payload : WebhookPayload := ⟨[], [], .null, "POST".toList, []⟩

theorem missing_id_frame_discarded_witness :
    jsonParse c9Msg = some (.obj c9Fields) ∧
    unmarshalPayload c9Msg = some c9Payload ∧
    c9Payload.ID = [] ∧ processMessage c9Cfg c9Msg = .ignoredDifferentID :=
  ⟨rfl, rfl,
    (missing_id_frame_discarded c9Cfg c9Msg c9Fields c9Payload rfl (by decide) rfl
      (by decide)).1,
    (missing_id_frame_discarded c9Cfg c9Msg c9Fields c9Payload rfl (by decide) rfl
      (by decide)).2.1⟩

def c10Cfg : Config := ⟨['a'], "http://x".toList⟩

def c10Msg : Str := "\x7b\"body\":null,\"id\":\"a\"\x7d".toList

def c10Fields : List (Str × Json) := [("body".toList, .null), (['i', 'd'], .str ['a'])]

/-- C10 counterexample: the claim "a present non-object body field makes
decoding of the whole frame fail" is false for `null`: unmarshaling `null`
into a `map[string]interface{}` is a no-op without error, so a frame with
`"body": null` (present, and not a JSON object) decodes successfully, and
forward is invoked when its id matches. -/
theorem body_null_frame_not_skipped :
    jsonParse c10Msg = some (.obj c10Fields) ∧
    fieldValue ['b', 'o', 'd', 'y'] c10Fields = some .null ∧
    (∀ flds, Json.null ≠ Json.obj flds) ∧
    unmarshalPayload c10Msg = some ⟨['a'], [], .null, [], []⟩ ∧
    forwardCount (processMessage c10Cfg c10Msg) = 1 :=
  ⟨rfl, rfl, fun _ h => Json.noConfusion h, rfl, rfl⟩

/-- Whether a JSON value can be unmarshaled into a `map[string]interface{}`
destination (an object populates it, `null` is a no-op). -/
def isObjOrNull : Json → Bool
  | .obj _ => true
  | .null => true
  | _ => false

/-- C10 (amended): a frame whose body field is present and is neither a
JSON object nor `null` (an array, string, number or boolean) fails to
decode as a whole, so the frame is skipped and forward is never invoked for
it, whatever its id. -/
theorem body_nonobject_frame_skipped (cfg : Config) (msg : Str)
    (fs : List (Str × Json)) (b : Json)
    (hparse : jsonParse msg = some (.obj fs))
    (hb : fieldValue ['b', 'o', 'd', 'y'] fs = some b)
    (hnb : isObjOrNull b = false) :
    unmarshalPayload msg = none ∧ processMessage cfg msg = .decodeFailed ∧
      forwardCount (processMessage cfg msg) = 0 := by
  have hbf : decodeBodyField (fieldValue ['b', 'o', 'd', 'y'] fs) = none := by
    rw [hb]
    cases b <;> simp [decodeBodyField, isObjOrNull] at hnb ⊢
  have hdm : decodePayload (.obj fs) = none := by
    simp only [decodePayload]
    cases h1 : decodeStrField (fieldValue ['i', 'd'] fs) with
    | none => simp [h1]
    | some i =>
      cases h2 : decodeStrMapField (fieldValue ['h', 'e', 'a', 'd', 'e', 'r', 's'] fs) with
      | none => simp [h1, h2]
      | some hs => simp [h1, h2, hbf]
  refine ⟨?_, ?_, ?_⟩
  · simp [unmarshalPayload, hparse, hdm]
  · simp [processMessage, unmarshalPayload, hparse, hdm]
  · simp [processMessage, unmarshalPayload, hparse, hdm, forwardCount]

def c10aCfg : Config := ⟨['a'], "http://x".toList⟩

def c10aMsg : Str := "\x7b\"body\":[false],\"id\":\"a\"\x7d".toList

def c10aFields : List (Str × Json) :=
  [("body".toList, .arr [.bool false]), (['i', 'd'], .str ['a'])]

theorem body_nonobject_frame_skipped_witness :
    jsonParse c10aMsg = some (.obj c10aFields) ∧
    fieldValue ['b', 'o', 'd', 'y'] c10aFields = some (.arr [.bool false]) ∧
    isObjOrNull (.arr [.bool false]) = false ∧
    unmarshalPayload c10aMsg = none ∧
    processMessage c10aCfg c10aMsg = .decodeFailed :=
  ⟨rfl, rfl, rfl,
    (body_nonobject_frame_skipped c10aCfg c10aMsg c10aFields (.arr [.bool false])
      rfl rfl rfl).1,
    (body_nonobject_frame_skipped c10aCfg c10aMsg c10aFields (.arr [.bool false])
      rfl rfl rfl).2.1⟩
